import Mathlib

/-
Verification of the fb2converter core against its specification.

Part 1 models the template engine ReplaceKeywords from
processor/textutils.go.  Go strings are modelled as List Char (the Go
code only ever slices at rune boundaries, and the byte test
in[i-1] != backslash agrees with the character test because UTF-8
continuation bytes are never the backslash byte).  The Go map[string]string
is modelled as an association list with unique keys; sort.Strings is
modelled by insertion sort over the lexicographic order on List Char,
which coincides with Go byte-wise string order because UTF-8 preserves
code-point order.

ReplaceKeywords recurses on a rewritten string whose length can grow, so
the embedding is fuel-indexed: replaceKeywordsF spends one unit of fuel
per recursive call and returns none when the fuel runs out.  A result
some v at any fuel is the value the Go function returns (the fuel
semantics is monotone, see replaceKeywordsF_mono).
-/

/-- A keyword mapping: (key, value) pairs, modelling Go map[string]string. -/
abbrev KMap := List (List Char × List Char)

/-- Fuel-indexed core of Go strings.Replace(s, key, val, -1) for a nonempty
key; fuel at least s.length makes the fuel irrelevant. -/
def repF (key val : List Char) : Nat → List Char → List Char
  | 0, s => s
  | _ + 1, [] => []
  | f + 1, c :: rest =>
    if key.isPrefixOf (c :: rest) then val ++ repF key val f ((c :: rest).drop key.length)
    else c :: repF key val f rest

/-- Go strings.Replace(s, key, val, -1): replace all non-overlapping
occurrences left to right; for the empty key Go inserts val before every
character and once at the start. -/
def replaceAll (s key val : List Char) : List Char :=
  if key.isEmpty then val ++ s.flatMap (fun c => c :: val)
  else repF key val s.length s

/-- Go strings.Index(s, key) != -1: key occurs as a substring of s. -/
def containsSub (s key : List Char) : Bool :=
  s.tails.any (fun t => key.isPrefixOf t)

/-- The local expandKeyword of ReplaceKeywords: replace all occurrences of
key when it occurs, reporting whether the substituted value was nonempty. -/
def expandKeyword (s key val : List Char) : List Char × Bool :=
  if containsSub s key then (replaceAll s key val, !val.isEmpty)
  else (s, false)

/-- The keys of the mapping sorted ascending, modelling sort.Strings. -/
def sortedKeys (m : KMap) : List (List Char) :=
  List.insertionSort (fun a b : List Char => a ≤ b) (m.map Prod.fst)

/-- The keys in the order the Go loop substitutes them: the loop walks the
ascending-sorted key slice from the last index down, so longer keys come
before any key that is a prefix of them. -/
def sortedKeysDesc (m : KMap) : List (List Char) :=
  (sortedKeys m).reverse

/-- Go m[k]; in ReplaceKeywords k is always a key of m. -/
def lookupVal (m : KMap) (k : List Char) : List Char :=
  match m.find? (fun kv => kv.1 == k) with
  | some kv => kv.2
  | none => []

/-- The local expandAll of ReplaceKeywords: substitute every key in
descending sorted order, then collapse the whole string to empty unless at
least one substituted value was nonempty. -/
def expandAll (s : List Char) (m : KMap) : List Char :=
  let r := (sortedKeysDesc m).foldl
    (fun acc k =>
      let p := expandKeyword acc.1 k (lookupVal m k)
      (p.1, acc.2 || p.2)) (s, false)
  if r.2 then r.1 else []

/-- The bracket scan loop of ReplaceKeywords: bo is the running bopen
(overwritten at every unescaped opening brace), prev the previously seen
character, i the current index; the loop stops at the first unescaped
closing brace. -/
def scanAux : List Char → Option Char → Nat → Option Nat → Option (Nat × Nat)
  | [], _, _, _ => none
  | c :: rest, prev, i, bo =>
    if c = '\x7b' ∧ prev ≠ some '\\' then scanAux rest (some c) (i + 1) (some i)
    else if c = '\x7d' ∧ prev ≠ some '\\' then
      match bo with
      | some b => some (b, i)
      | none => none
    else scanAux rest (some c) (i + 1) bo

/-- The (bopen, bclose) pair ReplaceKeywords resolves first, when the scan
finds one. -/
def scanB (s : List Char) : Option (Nat × Nat) :=
  scanAux s none 0 none

/-- The argument of the recursive ReplaceKeywords call:
in[:bopen] + expandAll(in[bopen+1:bclose]) + in[bclose+1:]. -/
def stepString (s : List Char) (m : KMap) (bo bc : Nat) : List Char :=
  s.take bo ++ expandAll ((s.take bc).drop (bo + 1)) m ++ s.drop (bc + 1)

/-- ReplaceKeywords from processor/textutils.go, fuel-indexed. -/
def replaceKeywordsF : Nat → List Char → KMap → Option (List Char)
  | 0, _, _ => none
  | n + 1, s, m =>
    match scanB s with
    | some (bo, bc) => replaceKeywordsF n (stepString s m bo bc) m
    | none => some (expandAll s m)

/-- ReplaceKeywords applied to s and m returns v: some fuel suffices. -/
def Computes (s : List Char) (m : KMap) (v : List Char) : Prop :=
  ∃ n, replaceKeywordsF n s m = some v

/-- Fuel is monotone: once the recursion bottoms out, more fuel does not
change the result. -/
theorem replaceKeywordsF_mono :
    ∀ (n : Nat) (s : List Char) (m : KMap) (v : List Char),
      replaceKeywordsF n s m = some v →
      ∀ k, replaceKeywordsF (n + k) s m = some v := by
  intro n
  induction n with
  | zero =>
    intro s m v h k
    simp [replaceKeywordsF] at h
  | succ j ih =>
    intro s m v h k
    have hrw : j + 1 + k = (j + k) + 1 := by omega
    rw [hrw]
    simp only [replaceKeywordsF] at h ⊢
    cases hsc : scanB s with
    | some p =>
      rw [hsc] at h
      cases p with
      | mk bo bc =>
        exact ih (stepString s m bo bc) m v h k
    | none =>
      rw [hsc] at h
      exact h

/-- The fuel semantics is deterministic. -/
theorem replaceKeywordsF_det :
    ∀ (n n' : Nat) (s : List Char) (m : KMap) (v w : List Char),
      replaceKeywordsF n s m = some v → replaceKeywordsF n' s m = some w → v = w := by
  intro n n' s m v w h h'
  have h1 := replaceKeywordsF_mono n s m v h n'
  have h2 := replaceKeywordsF_mono n' s m w h' n
  rw [Nat.add_comm n' n] at h2
  rw [h1] at h2
  exact (Option.some.injEq _ _).mp h2

/-- Claim C1 counterexample: on the pattern a-brace-#x-brace-b with the
mapping sending #x to Y, ReplaceKeywords returns the empty string, not
the string aYb the claim states: the bracketed block does resolve to aYb,
but the recursive call then flat-expands aYb, finds no key in it, and the
collapse rule of expandAll elides the whole string. -/
theorem c1_counterexample :
    Computes (("a\x7b#x\x7db").toList) [((("#x").toList), ("Y").toList)] [] ∧
    ¬ Computes (("a\x7b#x\x7db").toList) [((("#x").toList), ("Y").toList)] (("aYb").toList) := by
  constructor
  · exact ⟨2, by decide⟩
  · rintro ⟨n, h⟩
    have h2 : replaceKeywordsF 2 (("a\x7b#x\x7db").toList)
        [((("#x").toList), ("Y").toList)] = some [] := by decide
    have := replaceKeywordsF_det n 2 _ _ _ _ h h2
    exact absurd this (by decide)

/-- Claim C1 amended: for the pattern a-brace-#x-brace-b and the mapping
sending #x to Y, ReplaceKeywords returns the empty string: the conditional
block resolves to the substituted value, producing aYb, but the final flat
pass finds no key in aYb and collapses the entire result to empty. -/
theorem c1_amended :
    Computes (("a\x7b#x\x7db").toList) [((("#x").toList), ("Y").toList)] [] :=
  ⟨2, by decide⟩

/-- Claim C2 counterexample: on the pattern a-brace-#x-brace-b with #x
mapped to the empty string, ReplaceKeywords returns the empty string, not
the string ab the claim states: the block is elided, producing ab, but the
recursive call finds no key in ab and collapses the whole string. -/
theorem c2_counterexample :
    Computes (("a\x7b#x\x7db").toList) [((("#x").toList), ([] : List Char))] [] ∧
    ¬ Computes (("a\x7b#x\x7db").toList) [((("#x").toList), ([] : List Char))] (("ab").toList) := by
  constructor
  · exact ⟨2, by decide⟩
  · rintro ⟨n, h⟩
    have h2 : replaceKeywordsF 2 (("a\x7b#x\x7db").toList)
        [((("#x").toList), ([] : List Char))] = some [] := by decide
    have := replaceKeywordsF_det n 2 _ _ _ _ h h2
    exact absurd this (by decide)

/-- Claim C2 amended: for the pattern a-brace-#x-brace-b and the mapping
sending #x to the empty string, ReplaceKeywords returns the empty string:
the bracketed region is elided, and the surrounding literals a and b are
then dropped as well by the final flat pass, which finds no key in ab. -/
theorem c2_amended :
    Computes (("a\x7b#x\x7db").toList) [((("#x").toList), ([] : List Char))] [] :=
  ⟨2, by decide⟩

/-- Claim C3: ReplaceKeywords does not terminate on every input.  With the
mapping sending #a to brace-#a-brace and the pattern brace-#a-brace, the
rewrite step reproduces the input string exactly, so the Go recursion
calls itself forever on the same argument: the fuel-indexed embedding
returns none at every fuel. -/
theorem c3_divergence :
    ∀ n : Nat, replaceKeywordsF n (("\x7b#a\x7d").toList)
      [((("#a").toList), ("\x7b#a\x7d").toList)] = none := by
  intro n
  induction n with
  | zero => rfl
  | succ k ih =>
    have h1 : scanB (("\x7b#a\x7d").toList) = some (0, 3) := by decide
    have h2 : stepString (("\x7b#a\x7d").toList)
        [((("#a").toList), ("\x7b#a\x7d").toList)] 0 3 = ("\x7b#a\x7d").toList := by decide
    simp only [replaceKeywordsF, h1, h2]
    exact ih

/-- Claim C4 counterexample: ReplaceKeywords applied to the pattern
backslash-brace-literal-backslash-brace with the empty mapping returns the
empty string, not the text between braces: the escaped braces are indeed
not treated as delimiters, but the flat pass then substitutes no key, so
the whole string collapses; the backslashes would in any case never be
stripped by the code. -/
theorem c4_counterexample :
    Computes (("\\\x7bliteral\\\x7d").toList) [] [] ∧
    ¬ Computes (("\\\x7bliteral\\\x7d").toList) [] (("\x7bliteral\x7d").toList) := by
  constructor
  · exact ⟨1, by decide⟩
  · rintro ⟨n, h⟩
    have h2 : replaceKeywordsF 1 (("\\\x7bliteral\\\x7d").toList) [] = some [] := by decide
    have := replaceKeywordsF_det n 1 _ _ _ _ h h2
    exact absurd this (by decide)

/-- Claim C4 amended: a brace preceded by a backslash is never treated as
a delimiter (the bracket scan finds no pair in the escaped pattern), but
the escaping backslash is not removed from the string; with the empty
mapping no key is substituted, so the flat pass collapses the whole
pattern and ReplaceKeywords returns the empty string. -/
theorem c4_amended :
    scanB (("\\\x7bliteral\\\x7d").toList) = none ∧
    Computes (("\\\x7bliteral\\\x7d").toList) [] [] :=
  ⟨by decide, 1, by decide⟩

/-- Claim C6: in flat expansion keys are substituted in descending sorted
order (the key list of any mapping, as iterated by the Go loop, is
pairwise descending), and concretely the pattern #authors-#author with
#author mapped to A and #authors mapped to A-and-B expands to
A-and-B-A: the longer key #authors is substituted before its prefix
#author. -/
theorem c6_desc_order :
    replaceKeywordsF 1 (("#authors-#author").toList)
      [((("#author").toList), ("A").toList), ((("#authors").toList), ("A and B").toList)] =
      some (("A and B-A").toList) ∧
    ∀ m : KMap, (sortedKeysDesc m).Pairwise (fun a b => b ≤ a) := by
  constructor
  · decide
  · intro m
    have hs := List.sorted_insertionSort (fun a b : List Char => a ≤ b) (m.map Prod.fst)
    unfold sortedKeysDesc sortedKeys
    rw [List.pairwise_reverse]
    exact hs

/-- The character just before index k, as read by the scan loop. -/
def prevOf (s : List Char) (k : Nat) : Option Char :=
  if k = 0 then none else s[k - 1]?

/-- Index i of s carries character c and that occurrence is unescaped in
the sense of the scan loop: i is the first index or the previous character
is not a backslash. -/
def isUnescAt (s : List Char) (i : Nat) (c : Char) : Prop :=
  s[i]? = some c ∧ (i = 0 ∨ s[i - 1]? ≠ some '\\')

instance (s : List Char) (i : Nat) (c : Char) : Decidable (isUnescAt s i c) := by
  unfold isUnescAt
  infer_instance

/-- What the pair returned by the bracket scan is: bc is the first
unescaped closing brace of the string, and bo is the last unescaped
opening brace strictly before bc. -/
def PairSpec (s : List Char) (bo bc : Nat) : Prop :=
  isUnescAt s bc '\x7d' ∧ (∀ j, j < bc → ¬ isUnescAt s j '\x7d') ∧
  isUnescAt s bo '\x7b' ∧ bo < bc ∧
  (∀ j, bo < j → j < bc → ¬ isUnescAt s j '\x7b')

/-- Invariant-carrying correctness of the scan loop: starting at position
k with the running bopen bo, the scan returns exactly the pair described
by PairSpec, and returns none only when the first unescaped closing brace
of the string (if any) has no unescaped opening brace before it. -/
theorem scanAux_spec (s : List Char) :
    ∀ (t : List Char) (k : Nat) (bo : Option Nat),
      t = s.drop k → k ≤ s.length →
      (∀ j, j < k → ¬ isUnescAt s j '\x7d') →
      (∀ b, bo = some b →
        b < k ∧ isUnescAt s b '\x7b' ∧ ∀ j, b < j → j < k → ¬ isUnescAt s j '\x7b') →
      (bo = none → ∀ j, j < k → ¬ isUnescAt s j '\x7b') →
      (∀ bo2 bc2, scanAux t (prevOf s k) k bo = some (bo2, bc2) → PairSpec s bo2 bc2) ∧
      (scanAux t (prevOf s k) k bo = none →
        ∀ c, isUnescAt s c '\x7d' → (∀ j, j < c → ¬ isUnescAt s j '\x7d') →
          ∀ i, i < c → ¬ isUnescAt s i '\x7b') := by
  intro t
  induction t with
  | nil =>
    intro k bo ht hk _hcl _hbo _hbn
    constructor
    · intro bo2 bc2 h
      simp [scanAux] at h
    · intro _ c hc _ i _
      have hlen : s.length ≤ k := by
        have := List.drop_eq_nil_iff.mp ht.symm
        exact this
      have hclen : c < s.length := by
        rcases List.getElem?_eq_some_iff.mp hc.1 with ⟨h1, _⟩
        exact h1
      have : c < k := Nat.lt_of_lt_of_le hclen hlen
      exact absurd hc (_hcl c this)
  | cons ch t' ih =>
    intro k bo ht hk hcl hbo hbn
    have hsk : s[k]? = some ch := by
      have h1 : (s.drop k).head? = some ch := by
        rw [← ht]
        rfl
      rw [List.head?_drop] at h1
      exact h1
    have hklen : k < s.length := by
      rcases List.getElem?_eq_some_iff.mp hsk with ⟨h1, _⟩
      exact h1
    have ht' : t' = s.drop (k + 1) := by
      have h1 : (s.drop k).tail = s.drop (k + 1) := List.tail_drop s k
      rw [← ht] at h1
      exact h1
    have hprevnext : prevOf s (k + 1) = some ch := by
      unfold prevOf
      simp [hsk]
    have hesc : (prevOf s k ≠ some '\\') ↔ (k = 0 ∨ s[k - 1]? ≠ some '\\') := by
      unfold prevOf
      by_cases h0 : k = 0
      · simp [h0]
      · simp [h0]
    have hopen_iff : (ch = '\x7b' ∧ prevOf s k ≠ some '\\') ↔ isUnescAt s k '\x7b' := by
      unfold isUnescAt
      rw [hsk]
      constructor
      · rintro ⟨h1, h2⟩
        exact ⟨by rw [h1], hesc.mp h2⟩
      · rintro ⟨h1, h2⟩
        exact ⟨(Option.some.injEq _ _).mp h1, hesc.mpr h2⟩
    have hclose_iff : (ch = '\x7d' ∧ prevOf s k ≠ some '\\') ↔ isUnescAt s k '\x7d' := by
      unfold isUnescAt
      rw [hsk]
      constructor
      · rintro ⟨h1, h2⟩
        exact ⟨by rw [h1], hesc.mp h2⟩
      · rintro ⟨h1, h2⟩
        exact ⟨(Option.some.injEq _ _).mp h1, hesc.mpr h2⟩
    by_cases h1 : ch = '\x7b' ∧ prevOf s k ≠ some '\\'
    · have hopen : isUnescAt s k '\x7b' := hopen_iff.mp h1
      have hstep : scanAux (ch :: t') (prevOf s k) k bo =
          scanAux t' (prevOf s (k + 1)) (k + 1) (some k) := by
        simp only [scanAux, if_pos h1, hprevnext]
      rw [hstep]
      apply ih (k + 1) (some k) ht' hklen
      · intro j hj
        rcases Nat.lt_succ_iff_lt_or_eq.mp hj with hj' | hj'
        · exact hcl j hj'
        · subst hj'
          intro hc
          have hcc : ch = '\x7d' := by
            have h3 := hc.1
            rw [hsk] at h3
            exact (Option.some.injEq _ _).mp h3
          rw [h1.1] at hcc
          exact absurd hcc (by decide)
      · intro b hb
        have hbk : b = k := by
          exact (Option.some.injEq _ _).mp hb.symm
        subst hbk
        exact ⟨Nat.lt_succ_self b, hopen, fun j hj1 hj2 => absurd (Nat.lt_of_lt_of_le hj1 (Nat.lt_succ_iff.mp hj2)) (Nat.lt_irrefl _)⟩
      · intro h
        exact absurd h (by simp)
    · by_cases h2 : ch = '\x7d' ∧ prevOf s k ≠ some '\\'
      · have hclose : isUnescAt s k '\x7d' := hclose_iff.mp h2
        cases bo with
        | some b =>
          have hstep : scanAux (ch :: t') (prevOf s k) k (some b) = some (b, k) := by
            simp only [scanAux, if_neg h1, if_pos h2]
          rw [hstep]
          constructor
          · intro bo2 bc2 heq
            have hinj := (Option.some.injEq _ _).mp heq
            have hb2 : b = bo2 := congrArg Prod.fst hinj
            have hc2 : k = bc2 := congrArg Prod.snd hinj
            subst hb2
            subst hc2
            rcases hbo b rfl with ⟨hblt, hbop, hbno⟩
            exact ⟨hclose, hcl, hbop, hblt, hbno⟩
          · intro h
            simp at h
        | none =>
          have hstep : scanAux (ch :: t') (prevOf s k) k none = none := by
            simp only [scanAux, if_neg h1, if_pos h2]
          rw [hstep]
          constructor
          · intro bo2 bc2 heq
            simp at heq
          · intro _ c hc hfirst i hic
            have hck : c = k := by
              rcases Nat.lt_trichotomy c k with hlt | heq | hgt
              · exact absurd hc (hcl c hlt)
              · exact heq
              · exact absurd hclose (hfirst k hgt)
            subst hck
            exact hbn rfl i hic
      · have hstep : scanAux (ch :: t') (prevOf s k) k bo =
            scanAux t' (prevOf s (k + 1)) (k + 1) bo := by
          simp only [scanAux, if_neg h1, if_neg h2, hprevnext]
        rw [hstep]
        have hnotopen : ¬ isUnescAt s k '\x7b' := fun hcon => h1 (hopen_iff.mpr hcon)
        have hnotclose : ¬ isUnescAt s k '\x7d' := fun hcon => h2 (hclose_iff.mpr hcon)
        apply ih (k + 1) bo ht' hklen
        · intro j hj
          rcases Nat.lt_succ_iff_lt_or_eq.mp hj with hj' | hj'
          · exact hcl j hj'
          · subst hj'
            exact hnotclose
        · intro b hb
          rcases hbo b hb with ⟨hblt, hbop, hbno⟩
          refine ⟨Nat.lt_succ_of_lt hblt, hbop, ?_⟩
          intro j hj1 hj2
          rcases Nat.lt_succ_iff_lt_or_eq.mp hj2 with hj' | hj'
          · exact hbno j hj1 hj'
          · subst hj'
            exact hnotopen
        · intro hb j hj
          rcases Nat.lt_succ_iff_lt_or_eq.mp hj with hj' | hj'
          · exact hbn hb j hj'
          · subst hj'
            exact hnotopen

/-- Claim C5 counterexample: on the pattern open-a-open-b-close-c-close the
scan of ReplaceKeywords resolves the pair (2, 4), whose left bound is the
LAST unescaped opening brace before the first unescaped closing brace; the
FIRST unescaped opening brace of the string sits at index 0, which is not
the left bound of the region resolved first. -/
theorem c5_counterexample :
    scanB (("\x7ba\x7bb\x7dc\x7d").toList) = some (2, 4) ∧
    isUnescAt (("\x7ba\x7bb\x7dc\x7d").toList) 0 '\x7b' ∧ (2 : Nat) ≠ 0 := by
  refine ⟨by decide, by decide, by decide⟩

/-- Claim C5 amended: whenever the scan of ReplaceKeywords finds a pair
(bopen, bclose), bclose is the first unescaped closing brace of the
pattern and bopen is the LAST (not the first) unescaped opening brace
strictly before it; a pair is found whenever the first unescaped closing
brace has some unescaped opening brace before it; and the recursive step
rewrites the string as pattern[:bopen] + expandAll(pattern[bopen+1:bclose])
+ pattern[bclose+1:]. -/
theorem c5_amended :
    (∀ (s : List Char) (bo bc : Nat), scanB s = some (bo, bc) → PairSpec s bo bc) ∧
    (∀ (s : List Char) (bc : Nat),
      isUnescAt s bc '\x7d' → (∀ j, j < bc → ¬ isUnescAt s j '\x7d') →
      (∃ i, i < bc ∧ isUnescAt s i '\x7b') → ∃ p, scanB s = some p) ∧
    (∀ (n : Nat) (s : List Char) (m : KMap) (bo bc : Nat), scanB s = some (bo, bc) →
      replaceKeywordsF (n + 1) s m = replaceKeywordsF n (stepString s m bo bc) m) := by
  have base : ∀ s : List Char,
      (∀ bo2 bc2, scanAux s (prevOf s 0) 0 none = some (bo2, bc2) → PairSpec s bo2 bc2) ∧
      (scanAux s (prevOf s 0) 0 none = none →
        ∀ c, isUnescAt s c '\x7d' → (∀ j, j < c → ¬ isUnescAt s j '\x7d') →
          ∀ i, i < c → ¬ isUnescAt s i '\x7b') := by
    intro s
    apply scanAux_spec s s 0 none
    · exact (List.drop_zero s).symm
    · exact Nat.zero_le _
    · intro j hj
      exact absurd hj (Nat.not_lt_zero j)
    · intro b hb
      exact absurd hb (by simp)
    · intro _ j hj
      exact absurd hj (Nat.not_lt_zero j)
  have hpre : ∀ s : List Char, prevOf s 0 = none := fun s => rfl
  refine ⟨?_, ?_, ?_⟩
  · intro s bo bc h
    have hb := (base s).1 bo bc
    rw [hpre s] at hb
    exact hb h
  · intro s bc hc hfirst hex
    rcases hex with ⟨i, hic, hio⟩
    cases hscan : scanB s with
    | some p => exact ⟨p, rfl⟩
    | none =>
      have hb := (base s).2
      rw [hpre s] at hb
      exact absurd hio (hb hscan bc hc hfirst i hic)
  · intro n s m bo bc h
    simp only [replaceKeywordsF, h]

/-- Claim C5 witness: on the concrete pattern open-a-open-b-close-c-close
the pair resolved first is (2, 4), it satisfies the first-close and
last-open-before-it description, and the recursive step rewrites the
string accordingly. -/
theorem c5_witness :
    PairSpec (("\x7ba\x7bb\x7dc\x7d").toList) 2 4 ∧
    replaceKeywordsF 1 (("\x7ba\x7bb\x7dc\x7d").toList) [] =
      replaceKeywordsF 0 (stepString (("\x7ba\x7bb\x7dc\x7d").toList) [] 2 4) [] :=
  ⟨c5_amended.1 (("\x7ba\x7bb\x7dc\x7d").toList) 2 4 (by decide),
   c5_amended.2.2 0 (("\x7ba\x7bb\x7dc\x7d").toList) [] 2 4 (by decide)⟩

/-- Helper for C10: the flat-expansion fold leaves the string untouched
and the expanded flag false when none of the iterated keys occurs in s. -/
theorem foldl_no_key (s : List Char) (m : KMap) :
    ∀ ks : List (List Char), (∀ k, k ∈ ks → containsSub s k = false) →
      ks.foldl (fun acc k =>
        let p := expandKeyword acc.1 k (lookupVal m k)
        (p.1, acc.2 || p.2)) (s, false) = (s, false) := by
  intro ks
  induction ks with
  | nil =>
    intro _
    rfl
  | cons k ks ih =>
    intro h
    have hk : containsSub s k = false := h k (List.mem_cons_self k ks)
    have hstep : expandKeyword s k (lookupVal m k) = (s, false) := by
      unfold expandKeyword
      rw [hk]
      simp
    simp only [List.foldl_cons, hstep]
    exact ih (fun k' hk' => h k' (List.mem_cons_of_mem _ hk'))

/-- Helper for C10: expandAll collapses the string to empty when no key
of the mapping occurs as a substring of it. -/
theorem expandAll_no_key (s : List Char) (m : KMap)
    (hno : ∀ kv, kv ∈ m → containsSub s kv.1 = false) :
    expandAll s m = [] := by
  unfold expandAll
  have hkeys : ∀ k, k ∈ sortedKeysDesc m → containsSub s k = false := by
    intro k hmem
    have h1 : k ∈ sortedKeys m := List.mem_reverse.mp hmem
    have h2 : k ∈ m.map Prod.fst := by
      have hperm := List.perm_insertionSort (fun a b : List Char => a ≤ b) (m.map Prod.fst)
      exact hperm.mem_iff.mp h1
    rcases List.mem_map.mp h2 with ⟨kv, hkv, hk⟩
    rw [← hk]
    exact hno kv hkv
  rw [foldl_no_key s m (sortedKeysDesc m) hkeys]
  rfl

/-- Claim C10: for every non-empty pattern in which the scan finds no
unescaped bracket pair, if no key of the mapping occurs as a substring of
the pattern, ReplaceKeywords returns the empty string: the whole top-level
pattern collapses, dropping all its literal text. -/
theorem c10_literal_collapse :
    ∀ (s : List Char) (m : KMap), s ≠ [] → scanB s = none →
      (∀ kv, kv ∈ m → containsSub s kv.1 = false) →
      replaceKeywordsF 1 s m = some [] := by
  intro s m _hne hscan hno
  simp only [replaceKeywordsF, hscan, expandAll_no_key s m hno]

/-- Claim C10 witness: the literal pattern abc with a mapping whose only
key #x does not occur in it expands to the empty string. -/
theorem c10_witness :
    replaceKeywordsF 1 (("abc").toList) [((("#x").toList), ("Y").toList)] = some [] :=
  c10_literal_collapse (("abc").toList) [((("#x").toList), ("Y").toList)]
    (by decide) (by decide) (by decide)

/-
Part 2 models FinalizeEPUB (the archive finalizer).  Paths are lists of
components (forward-slash normalization is inherent: archive names are the
components joined with a slash).  The filesystem is the list of entries
filepath.Walk would visit, each a path with a regular-file flag and byte
content; theorems quantify over arbitrary entry orders, so the lexical
walk order is covered.  os.MkdirAll is a no-op in the model, os.Create
adds an empty file (the archive bytes are returned as the entry list
instead of being serialized into it), and the I/O operations that cannot
fail in the model (create, open, copy) drop the corresponding Go error
paths.  The zip writer is the list of written entries in order, each with
its name, method (Store or Deflate) and content.
-/

/-- One filesystem entry, as seen by os.Stat and filepath.Walk. -/
structure FSFile where
  path : List String
  isRegular : Bool
  data : List Nat
deriving DecidableEq

/-- The filesystem: the entries filepath.Walk would visit, in walk order. -/
abbrev FS := List FSFile

/-- The Processor fields FinalizeEPUB reads. -/
structure Proc where
  debug : Bool
  overwrite : Bool
  tmpDir : List String

/-- Compression method of a zip member. -/
inductive ZMethod where
  | store : ZMethod
  | deflate : ZMethod
deriving DecidableEq

/-- One member written to the zip archive. -/
structure ZipEntry where
  name : String
  method : ZMethod
  data : List Nat
deriving DecidableEq

/-- os.Stat: the entry at the given path, if any. -/
def statF (fs : FS) (p : List String) : Option FSFile :=
  fs.find? (fun e => e.path == p)

/-- os.Remove: drop the entry at the given path. -/
def removeF (fs : FS) (p : List String) : FS :=
  fs.filter (fun e => e.path != p)

/-- os.Create: add a fresh empty regular file at the given path. -/
def createF (fs : FS) (p : List String) : FS :=
  ⟨p, true, []⟩ :: fs

/-- info.Name(): the bare file name, without any directory prefix. -/
def lastComp (p : List String) : String :=
  (p.getLast?).getD ("")

/-- filepath.Rel(base, p) for paths below base, already slash-normalized
by the component representation. -/
def relComps (base p : List String) : List String :=
  if base.isPrefixOf p then p.drop base.length else p

/-- A path as one forward-slash separated string. -/
def pathToString (p : List String) : String :=
  String.intercalate ("/") p

/-- The saveFile closure of FinalizeEPUB: skip non-regular entries, the
output file itself and, once the anchor has been written (content true),
everything directly in the staging root; write the anchor under its bare
name with the Store method and every other member under its relative
slash path with the default Deflate method.  none means the entry was
skipped, not an error: the Go closure returns a nil error on skips. -/
def saveFile (pr : Proc) (fname : List String) (content : Bool) (e : FSFile) : Option ZipEntry :=
  if !e.isRegular then none
  else if e.path = fname then none
  else if content && (e.path.dropLast == pr.tmpDir) then none
  else if !content then some ⟨lastComp e.path, ZMethod.store, e.data⟩
  else some ⟨pathToString (relComps pr.tmpDir e.path), ZMethod.deflate, e.data⟩

/-- filepath.Walk(p.tmpDir, saveFile) with content true: the members
written while walking the staging tree, in walk order. -/
def walkEntries (pr : Proc) (fname : List String) (fs : FS) : List ZipEntry :=
  (fs.filter (fun e => pr.tmpDir.isPrefixOf e.path)).filterMap (saveFile pr fname true)

/-- The fixed location of the anchor member: mimetype at the staging root. -/
def mtPath (pr : Proc) : List String :=
  pr.tmpDir ++ [("mimetype")]

/-- The tail of FinalizeEPUB after the existence check: create the output
file, stat the anchor (failing when it is absent), write the anchor first
and then walk the staging tree.  The resulting filesystem is returned
together with the archive or the error. -/
def finalizeCore (pr : Proc) (fs : FS) (fname : List String) :
    FS × Except String (List ZipEntry) :=
  match statF (createF fs fname) (mtPath pr) with
  | none => (createF fs fname, Except.error ("unable to find mimetype file"))
  | some info =>
    (createF fs fname,
      Except.ok ((saveFile pr fname false info).toList ++
        walkEntries pr fname (createF fs fname)))

/-- FinalizeEPUB: fail when the output path exists and neither overwrite
nor debug mode allows replacing it; otherwise remove any existing output
file and assemble the archive. -/
def finalizeEPUB (pr : Proc) (fs : FS) (fname : List String) :
    FS × Except String (List ZipEntry) :=
  match statF fs fname with
  | some _ =>
    if !pr.debug && !pr.overwrite then
      (fs, Except.error (("output file already exists: ") ++ pathToString fname))
    else finalizeCore pr (removeF fs fname) fname
  | none => finalizeCore pr fs fname

/-- Creating the output file does not change what os.Stat sees at any
other path. -/
theorem statF_createF (fs : FS) (p q : List String) (h : p ≠ q) :
    statF (createF fs q) p = statF fs p := by
  unfold statF createF
  rw [List.find?_cons_of_neg]
  simp only [beq_iff_eq]
  exact fun hc => h hc.symm

/-- Removing the output file does not change what os.Stat sees at any
other path. -/
theorem statF_removeF (p q : List String) (h : p ≠ q) (fs : FS) :
    statF (removeF fs q) p = statF fs p := by
  unfold statF removeF
  rw [List.find?_filter]
  congr 1
  funext e
  by_cases he : e.path = p
  · simp [he, h]
  · simp [he]

/-- The entry os.Stat returns lives at the queried path. -/
theorem statF_path {fs : FS} {p : List String} {f : FSFile}
    (h : statF fs p = some f) : f.path = p := by
  have h1 := List.find?_some h
  exact eq_of_beq h1

/-- Every member written during the content walk uses the Deflate method. -/
theorem saveFile_deflate (pr : Proc) (fname : List String) (e : FSFile) (z : ZipEntry)
    (h : saveFile pr fname true e = some z) : z.method = ZMethod.deflate := by
  unfold saveFile at h
  split at h
  · exact absurd h (by simp)
  · split at h
    · exact absurd h (by simp)
    · split at h
      · exact absurd h (by simp)
      · split at h
        · next hcond => simp at hcond
        · have h2 := (Option.some.injEq _ _).mp h
          rw [← h2]

/-- Claim C8: when the output path exists, overwrite is off and debug mode
is inactive, FinalizeEPUB fails with the output-file-already-exists error
and leaves the filesystem, in particular the existing output file,
completely unchanged; running it a second time on the resulting state
fails in exactly the same way. -/
theorem c8_exists_error :
    ∀ (pr : Proc) (fs : FS) (fname : List String) (f : FSFile),
      statF fs fname = some f → pr.debug = false → pr.overwrite = false →
      finalizeEPUB pr fs fname =
        (fs, Except.error (("output file already exists: ") ++ pathToString fname)) ∧
      finalizeEPUB pr (finalizeEPUB pr fs fname).1 fname =
        (fs, Except.error (("output file already exists: ") ++ pathToString fname)) := by
  intro pr fs fname f hstat hdbg hovr
  have h1 : finalizeEPUB pr fs fname =
      (fs, Except.error (("output file already exists: ") ++ pathToString fname)) := by
    unfold finalizeEPUB
    rw [hstat]
    simp [hdbg, hovr]
  refine ⟨h1, ?_⟩
  rw [h1]
  exact h1

/-- Claim C8 witness: a filesystem holding only the output file, with
overwrite and debug off, makes FinalizeEPUB fail twice with the same
error and the same unchanged filesystem. -/
theorem c8_witness :
    finalizeEPUB ⟨false, false, [("tmp")]⟩ [⟨[("out")], true, [1]⟩] [("out")] =
      ([⟨[("out")], true, [1]⟩],
        Except.error (("output file already exists: ") ++ pathToString [("out")])) ∧
    finalizeEPUB ⟨false, false, [("tmp")]⟩
        (finalizeEPUB ⟨false, false, [("tmp")]⟩ [⟨[("out")], true, [1]⟩] [("out")]).1
        [("out")] =
      ([⟨[("out")], true, [1]⟩],
        Except.error (("output file already exists: ") ++ pathToString [("out")])) :=
  c8_exists_error ⟨false, false, [("tmp")]⟩ [⟨[("out")], true, [1]⟩] [("out")]
    ⟨[("out")], true, [1]⟩ rfl rfl rfl

/-- Claim C9: when the staging root holds no mimetype entry (and the
output path is fresh and distinct from the anchor path, so the earlier
existence check passes), FinalizeEPUB fails with the
unable-to-find-mimetype-file error; only the freshly created, still empty
output file has been added to the filesystem, no archive is produced, and
the failure is surfaced to the caller. -/
theorem c9_missing_anchor :
    ∀ (pr : Proc) (fs : FS) (fname : List String),
      statF fs fname = none → statF fs (mtPath pr) = none → fname ≠ mtPath pr →
      finalizeEPUB pr fs fname =
        (createF fs fname, Except.error ("unable to find mimetype file")) := by
  intro pr fs fname h1 h2 h3
  unfold finalizeEPUB
  rw [h1]
  unfold finalizeCore
  have hcr : statF (createF fs fname) (mtPath pr) = none := by
    rw [statF_createF fs (mtPath pr) fname (fun hc => h3 hc.symm)]
    exact h2
  rw [hcr]

/-- Claim C9 witness: a staging tree with a single non-anchor file makes
FinalizeEPUB fail with the mimetype error. -/
theorem c9_witness :
    finalizeEPUB ⟨false, false, [("tmp")]⟩ [⟨[("tmp"), ("other")], true, []⟩] [("out")] =
      (createF [⟨[("tmp"), ("other")], true, []⟩] [("out")],
        Except.error ("unable to find mimetype file")) :=
  c9_missing_anchor ⟨false, false, [("tmp")]⟩ [⟨[("tmp"), ("other")], true, []⟩] [("out")]
    rfl rfl (by decide)

/-- Claim C7 counterexample: when the staging root's mimetype entry is a
directory rather than a regular file, FinalizeEPUB SUCCEEDS while writing
no anchor member at all: the saveFile call for the anchor silently skips
non-regular entries and returns no error, so the produced archive starts
with an ordinary content member (here c/x, deflated), not with a stored
mimetype member. -/
theorem c7_counterexample :
    (finalizeEPUB ⟨false, false, [("tmp")]⟩
        [⟨[("tmp"), ("mimetype")], false, []⟩, ⟨[("tmp"), ("c"), ("x")], true, [98]⟩]
        [("out")]).2 =
      Except.ok [⟨("c/x"), ZMethod.deflate, [98]⟩] ∧
    (("c/x") : String) ≠ ("mimetype") := by
  exact ⟨rfl, by decide⟩

/-- Claim C7 amended: whenever the staging root's mimetype entry is a
regular file whose path differs from the output path, every successful
FinalizeEPUB run writes the anchor as the first archive entry, under its
bare name mimetype with the Store method, and every other member comes
after it with the Deflate method, regardless of the walk order of the
rest of the staging tree. -/
theorem c7_anchor_first :
    ∀ (pr : Proc) (fs : FS) (fname : List String) (f : FSFile) (fs2 : FS)
      (entries : List ZipEntry),
      statF fs (mtPath pr) = some f → f.isRegular = true → mtPath pr ≠ fname →
      finalizeEPUB pr fs fname = (fs2, Except.ok entries) →
      ∃ tl, entries = ⟨("mimetype"), ZMethod.store, f.data⟩ :: tl ∧
        ∀ z, z ∈ tl → z.method = ZMethod.deflate := by
  intro pr fs fname f fs2 entries hmt hreg hne hfin
  have key : ∀ fsx : FS, statF fsx (mtPath pr) = some f →
      finalizeCore pr fsx fname = (fs2, Except.ok entries) →
      ∃ tl, entries = ⟨("mimetype"), ZMethod.store, f.data⟩ :: tl ∧
        ∀ z, z ∈ tl → z.method = ZMethod.deflate := by
    intro fsx hstat hcore
    have hcr : statF (createF fsx fname) (mtPath pr) = some f := by
      rw [statF_createF fsx (mtPath pr) fname hne]
      exact hstat
    unfold finalizeCore at hcore
    rw [hcr] at hcore
    have hpath : f.path = mtPath pr := statF_path hstat
    have hlast : lastComp f.path = ("mimetype") := by
      rw [hpath]
      unfold lastComp mtPath
      rw [List.getLast?_concat]
      rfl
    have hpf : ¬ (f.path = fname) := by
      rw [hpath]
      exact hne
    have hsv : saveFile pr fname false f = some ⟨("mimetype"), ZMethod.store, f.data⟩ := by
      unfold saveFile
      simp [hreg, hpf, hlast]
    have hent : ⟨("mimetype"), ZMethod.store, f.data⟩ ::
        walkEntries pr fname (createF fsx fname) = entries := by
      have hsnd := congrArg Prod.snd hcore
      simp only [hsv] at hsnd
      simpa using hsnd
    refine ⟨walkEntries pr fname (createF fsx fname), hent.symm, ?_⟩
    intro z hz
    unfold walkEntries at hz
    rcases List.mem_filterMap.mp hz with ⟨e, _, hse⟩
    exact saveFile_deflate pr fname e z hse
  unfold finalizeEPUB at hfin
  cases hstat0 : statF fs fname with
  | some f0 =>
    rw [hstat0] at hfin
    simp only [] at hfin
    by_cases hcond : (!pr.debug && !pr.overwrite) = true
    · rw [if_pos hcond] at hfin
      have hbad := congrArg Prod.snd hfin
      simp at hbad
    · rw [if_neg hcond] at hfin
      apply key (removeF fs fname)
      · rw [statF_removeF (mtPath pr) fname hne fs]
        exact hmt
      · exact hfin
  | none =>
    rw [hstat0] at hfin
    exact key fs hmt hfin

/-- Claim C7 witness: on a staging tree with a regular mimetype file and
one nested content file, the successful run yields the stored anchor
first and the deflated content member after it. -/
theorem c7_witness :
    ∃ tl, [(⟨("mimetype"), ZMethod.store, [97]⟩ : ZipEntry),
        ⟨("c/x"), ZMethod.deflate, [98]⟩] =
        ⟨("mimetype"), ZMethod.store, [97]⟩ :: tl ∧
      ∀ z, z ∈ tl → z.method = ZMethod.deflate :=
  c7_anchor_first ⟨false, false, [("tmp")]⟩
    [⟨[("tmp"), ("mimetype")], true, [97]⟩, ⟨[("tmp"), ("c"), ("x")], true, [98]⟩]
    [("out")] ⟨[("tmp"), ("mimetype")], true, [97]⟩
    (createF [⟨[("tmp"), ("mimetype")], true, [97]⟩,
      ⟨[("tmp"), ("c"), ("x")], true, [98]⟩] [("out")])
    [⟨("mimetype"), ZMethod.store, [97]⟩, ⟨("c/x"), ZMethod.deflate, [98]⟩]
    rfl rfl (by decide) rfl
